import Mathlib

/-!
Verification of `rag_directory/cli.py` (class `RAGTool`).

Shallow embedding conventions:
* Python strings are modelled as `List Char` (`Str`); Python's argument-free
  `str.split()` is modelled by `pysplit`, which splits on whitespace and
  drops empty fragments.
* The embedding model (`SentenceTransformer.encode`) and sklearn's
  `cosine_similarity` are external collaborators; they are modelled as
  abstract function parameters (`embed`, `sim`).  Similarity scores are
  modelled as rationals.
* Python dicts (`self.documents`, `self.embeddings`) are modelled as
  insertion-ordered association lists (`insertAssoc` overwrites in place,
  `lookupAssoc` finds by key), matching dict insertion/iteration order.
* `list.sort(key=..., reverse=True)` is Python's stable sort; it is modelled
  by the stable descending insertion sort `sortBySimilarityDesc`.
* The filesystem walk of `load_directory` is modelled by a list of
  `(path, parsed content)` pairs: `_parse_file` itself never raises (it
  returns `""` both for unsupported suffixes and on read errors), so the
  content string already reflects extraction failures as `[]`.
-/

set_option autoImplicit false

abbrev Str := List Char

/-- The single-space join of a token list, as performed by
`_create_chunks` at lines 95 and 100 of cli.py. -/
def joinSpace : List Str → Str
  | [] => []
  | [w] => w
  | w :: ws => w ++ ' ' :: joinSpace ws

/-- Helper for `pysplit`: `acc` is the word currently being accumulated. -/
def pysplitAux : Str → Str → List Str
  | acc, [] => if acc.isEmpty then [] else [acc]
  | acc, c :: cs =>
    if c.isWhitespace then
      (if acc.isEmpty then [] else [acc]) ++ pysplitAux [] cs
    else
      pysplitAux (acc ++ [c]) cs

/-- Python's `text.split()` (no separator argument): split on whitespace,
dropping empty fragments.  Used at line 85 of cli.py. -/
def pysplit (s : Str) : List Str := pysplitAux [] s

/-- Helper for `_create_chunks`: the loop of lines 90-97, carrying
`current_chunk` and `current_size`. -/
def createChunksAux (chunkSize : Nat) : List Str → List Str → Nat → List Str
  | [], current, _ => if current.isEmpty then [] else [joinSpace current]
  | w :: ws, current, currentSize =>
    if chunkSize ≤ currentSize + w.length + 1 then
      joinSpace (current ++ [w]) :: createChunksAux chunkSize ws [] 0
    else
      createChunksAux chunkSize ws (current ++ [w]) (currentSize + w.length + 1)

/-- `RAGTool._create_chunks(text, chunk_size)` (lines 83-102 of cli.py). -/
def createChunks (text : Str) (chunkSize : Nat) : List Str :=
  createChunksAux chunkSize (pysplit text) [] 0

/-- Sum of `len(word) + 1` over a token list: the value `current_size`
would take after accumulating exactly these tokens. -/
def szsum (g : List Str) : Nat := g.foldr (fun w a => w.length + 1 + a) 0

/-- An embedding vector (the external model returns a fixed-length numeric
vector; its entries are modelled as rationals). -/
abbrev Embedding := List ℚ

/-- Ordered association list insert with Python-dict semantics: overwrite
in place if the key exists, else append at the end. -/
def insertAssoc {β : Type} : List (String × β) → String → β → List (String × β)
  | [], p, v => [(p, v)]
  | (q, w) :: rest, p, v =>
    if q = p then (q, v) :: rest else (q, w) :: insertAssoc rest p v

/-- Association-list lookup (Python dict `d[p]` / membership). -/
def lookupAssoc {β : Type} : List (String × β) → String → Option β
  | [], _ => none
  | (q, w) :: rest, p => if q = p then some w else lookupAssoc rest p

/-- The in-memory state built by `load_directory`: `self.documents` and
`self.embeddings` (lines 23-24 of cli.py). -/
structure Corpus where
  documents : List (String × List Str)
  embeddings : List (String × List Embedding)

/-- One iteration of the `load_directory` loop body (lines 31-47 of cli.py)
for a file whose `_parse_file` result is `f.2`: chunk the content, store the
chunks, store one embedding per chunk in chunk order. -/
def processFile (embed : Str → Embedding) (c : Corpus) (f : String × Str) : Corpus :=
  let chunks := createChunks f.2 1000
  { documents := insertAssoc c.documents f.1 chunks
    embeddings := insertAssoc c.embeddings f.1 (chunks.map embed) }

/-- `RAGTool.load_directory` (lines 26-49 of cli.py): `files` lists the
regular, non-hidden files of the walk, each paired with the string
`_parse_file` returned for it (`[]` for unsupported types and read errors,
since `_parse_file` catches its own exceptions and returns `""`). -/
def loadDirectory (files : List (String × Str)) (embed : Str → Embedding) : Corpus :=
  files.foldl (processFile embed) ⟨[], []⟩

/-- The content the last processed occurrence of path `p` contributed
(later dict writes overwrite earlier ones). -/
def lastContent (files : List (String × Str)) (p : String) : Option Str :=
  ((files.filter (fun f => decide (f.1 = p))).getLast?).map (fun f => f.2)

/-- One entry of `all_similarities` in `find_relevant_chunks`
(lines 115-119 of cli.py). -/
structure SimResult where
  file_path : String
  chunk_idx : Nat
  similarity : ℚ
  deriving DecidableEq

/-- The `all_similarities` list (lines 108-119 of cli.py): all
`(file_path, chunk_idx, similarity)` triples, documents in Corpus
iteration order, chunks in ascending index order. -/
def allSimilarities (embeddings : List (String × List Embedding))
    (queryEmbedding : Embedding) (sim : Embedding → Embedding → ℚ) : List SimResult :=
  (embeddings.map (fun pe =>
    pe.2.enum.map (fun ie =>
      { file_path := pe.1, chunk_idx := ie.1, similarity := sim queryEmbedding ie.2 }))).flatten

/-- Insert one element into a similarity-descending list, after every
element with strictly larger similarity (hence before equal scores placed
later: processing `foldr`-style from the right keeps earlier list elements
in front of their ties, which is exactly stable sorting). -/
def insertDesc (x : SimResult) : List SimResult → List SimResult
  | [] => [x]
  | y :: ys => if x.similarity < y.similarity then y :: insertDesc x ys else x :: y :: ys

/-- `all_similarities.sort(key=lambda x: x['similarity'], reverse=True)`
(line 122 of cli.py): Python's list sort is stable; modelled by a stable
insertion sort, descending on the similarity key. -/
def sortBySimilarityDesc (l : List SimResult) : List SimResult := l.foldr insertDesc []

/-- `RAGTool.find_relevant_chunks` (lines 104-123 of cli.py), with the query
embedding and the similarity function as explicit parameters. -/
def findRelevantChunks (c : Corpus) (queryEmbedding : Embedding)
    (sim : Embedding → Embedding → ℚ) (top_k : Nat) : List SimResult :=
  (sortBySimilarityDesc (allSimilarities c.embeddings queryEmbedding sim)).take top_k

/-- Total number of stored chunk embeddings across the Corpus. -/
def totalChunks (c : Corpus) : Nat := (c.embeddings.map (fun pe => pe.2.length)).sum

/-- Result of parsing the HTTP response body as JSON and reading its
`response` field. -/
inductive BodyParse where
  | malformed (msg : String)
  | missingKey (msg : String)
  | ok (resp : String)

/-- Outcome of `requests.post` in `query_ollama` (lines 145-148 of cli.py):
either the transport raises, or a response with a status code arrives and
its body parses (or not) as above. -/
inductive HttpOutcome where
  | transportError (msg : String)
  | success (status : Nat) (statusMsg : String) (body : BodyParse)

/-- The `full_prompt` f-string of `query_ollama` (lines 130-137 of cli.py). -/
def fullPrompt (context prompt : String) : String :=
  "Context information is below.\n        ---------------------\n        "
    ++ context
    ++ "\n        ---------------------\n        Given the context information, please answer the following question:\n        "
    ++ prompt
    ++ "\n        \n        If the answer cannot be found in the context, please say so."

/-- The error string built by the `except` branch of `query_ollama`
(line 150 of cli.py). -/
def mkErr (m : String) : String := "Error querying Ollama: " ++ m

/-- True exactly when the `try` block of `query_ollama` raises: transport
failure, `raise_for_status` on a 4xx/5xx status, a non-JSON body, or a JSON
body without a `response` key. -/
def ollamaFailed : HttpOutcome → Bool
  | HttpOutcome.transportError _ => true
  | HttpOutcome.success status _ body =>
    decide (400 ≤ status ∧ status < 600) ||
      (match body with
       | BodyParse.ok _ => false
       | _ => true)

/-- The `try` block of `query_ollama` (lines 145-150 of cli.py) as a
function of the backend's observable behaviour: `raise_for_status` raises
on a 4xx/5xx status, `response.json()` raises on a non-JSON body, the
`['response']` subscript raises on a missing key, and every one of these
exceptions lands in the single `except`, which returns the error string. -/
def queryOllamaResult : HttpOutcome → String
  | HttpOutcome.transportError msg => mkErr msg
  | HttpOutcome.success status statusMsg body =>
    if 400 ≤ status ∧ status < 600 then mkErr statusMsg
    else
      match body with
      | BodyParse.malformed msg => mkErr msg
      | BodyParse.missingKey msg => mkErr msg
      | BodyParse.ok resp => resp

/-- `RAGTool.query_ollama` (lines 125-150 of cli.py).  `backendReply` maps
the posted prompt to the backend's observable behaviour. -/
def queryOllama (backendReply : String → HttpOutcome) (prompt context : String) : String :=
  queryOllamaResult (backendReply (fullPrompt context prompt))

/-- What one iteration of `chat_loop` (lines 156-186 of cli.py) does with a
query: exit, inform the user that nothing was found, or present an answer
with its sources. -/
inductive ChatAction where
  | exitSession
  | noResults
  | answered (response : String) (sources : List String)
  deriving DecidableEq

/-- `self.documents[chunk['file_path']][chunk['chunk_idx']]` (line 171 of
cli.py); retrieval only produces in-range indices, so the defaults are
never reached for results of `find_relevant_chunks`. -/
def lookupChunkText (c : Corpus) (r : SimResult) : Str :=
  ((lookupAssoc c.documents r.file_path).getD []).getD r.chunk_idx []

/-- `"\n\n".join(...)` over the retrieved chunk texts (line 170 of cli.py). -/
def joinBlankLine : List Str → Str
  | [] => []
  | [w] => w
  | w :: ws => w ++ '\n' :: '\n' :: joinBlankLine ws

/-- The context string assembled for one query (lines 170-173 of cli.py). -/
def contextOf (c : Corpus) (rel : List SimResult) : Str :=
  joinBlankLine (rel.map (lookupChunkText c))

/-- `set(chunk['file_path'] for chunk in relevant_chunks)` (line 183). -/
def sourcesOf (rel : List SimResult) : List String :=
  (rel.map (fun r => r.file_path)).eraseDups

/-- Python's `str.lower()` (used at line 159 of cli.py), modelled
characterwise so that it evaluates by kernel reduction. -/
def pylower (s : String) : String := String.mk (s.data.map Char.toLower)

/-- One iteration of the `while True` loop of `chat_loop` (lines 156-186 of
cli.py).  `backend` abstracts `query_ollama query context`. -/
def chatStep (c : Corpus) (queryEmbedding : Embedding)
    (sim : Embedding → Embedding → ℚ) (backend : String → Str → String)
    (query : String) : ChatAction :=
  if pylower query = "exit" then ChatAction.exitSession
  else
    let rel := findRelevantChunks c queryEmbedding sim 3
    if rel.isEmpty then ChatAction.noResults
    else ChatAction.answered (backend query (contextOf c rel)) (sourcesOf rel)

/-- Whether the loop goes on to await the next query after this action. -/
def loopContinues : ChatAction → Bool
  | ChatAction.exitSession => false
  | _ => true

/-- A concrete all-zero similarity function (used to instantiate theorems). -/
def simZero : Embedding → Embedding → ℚ := fun _ _ => 0

/-- A concrete constant embedding function (used to instantiate theorems). -/
def embedZero : Str → Embedding := fun _ => [0]

/-- A backend whose transport always fails (used to instantiate theorems). -/
def brDown : String → HttpOutcome := fun _ => HttpOutcome.transportError "connection refused"

/-! ### Lemmas about `pysplit` -/

/-- Every token produced by `pysplitAux` from a whitespace-free accumulator
is non-empty and whitespace-free. -/
theorem pysplitAux_wf (l : Str) : ∀ (acc : Str), (∀ c ∈ acc, ¬ c.isWhitespace) →
    ∀ w ∈ pysplitAux acc l, w ≠ [] ∧ ∀ c ∈ w, ¬ c.isWhitespace := by
  induction l with
  | nil =>
    intro acc hacc w hw
    simp only [pysplitAux] at hw
    by_cases h : acc.isEmpty
    · simp [h] at hw
    · rw [if_neg h] at hw
      simp only [List.mem_singleton] at hw
      subst hw
      exact ⟨fun he => h (by simp [he]), hacc⟩
  | cons c cs ih =>
    intro acc hacc w hw
    simp only [pysplitAux] at hw
    by_cases hws : c.isWhitespace
    · rw [if_pos hws] at hw
      rcases List.mem_append.1 hw with h1 | h2
      · by_cases h : acc.isEmpty
        · simp [h] at h1
        · rw [if_neg h] at h1
          simp only [List.mem_singleton] at h1
          subst h1
          exact ⟨fun he => h (by simp [he]), hacc⟩
      · exact ih [] (by simp) w h2
    · rw [if_neg hws] at hw
      refine ih (acc ++ [c]) ?_ w hw
      intro d hd
      rcases List.mem_append.1 hd with h1 | h2
      · exact hacc d h1
      · simp only [List.mem_singleton] at h2
        subst h2
        exact hws

/-- Every token of `pysplit` is non-empty and whitespace-free. -/
theorem pysplit_wf (s : Str) : ∀ w ∈ pysplit s, w ≠ [] ∧ ∀ c ∈ w, ¬ c.isWhitespace :=
  pysplitAux_wf s [] (by simp)

/-- Scanning a whitespace-free block just extends the accumulator. -/
theorem pysplitAux_append_word : ∀ (w : Str), (∀ c ∈ w, ¬ c.isWhitespace) →
    ∀ (acc l : Str), pysplitAux acc (w ++ l) = pysplitAux (acc ++ w) l := by
  intro w
  induction w with
  | nil => intro _ acc l; simp
  | cons c w' ih =>
    intro hw acc l
    have hc : ¬ c.isWhitespace := hw c (by simp)
    have hw' : ∀ d ∈ w', ¬ d.isWhitespace := fun d hd => hw d (by simp [hd])
    simp only [List.cons_append, pysplitAux, if_neg hc, List.append_eq]
    rw [ih hw' (acc ++ [c]) l]
    simp

/-- Scanning a whitespace character flushes the accumulator. -/
theorem pysplitAux_ws (c : Char) (hc : c.isWhitespace) (acc l : Str) :
    pysplitAux acc (c :: l) = (if acc.isEmpty then [] else [acc]) ++ pysplitAux [] l := by
  simp only [pysplitAux, if_pos hc]

/-- Splitting the single-space join of non-empty whitespace-free tokens
recovers exactly those tokens. -/
theorem pysplit_joinSpace : ∀ (g : List Str),
    (∀ w ∈ g, w ≠ [] ∧ ∀ c ∈ w, ¬ c.isWhitespace) → pysplit (joinSpace g) = g := by
  intro g
  induction g with
  | nil => intro _; rfl
  | cons w g' ih =>
    intro hg
    obtain ⟨hwne, hwf⟩ := hg w (by simp)
    cases g' with
    | nil =>
      show pysplitAux [] (joinSpace [w]) = [w]
      have h1 : joinSpace [w] = w ++ [] := by simp [joinSpace]
      rw [h1, pysplitAux_append_word w hwf [] []]
      simp only [List.nil_append, pysplitAux]
      rw [if_neg (by simp [hwne])]
    | cons v vs =>
      show pysplitAux [] (joinSpace (w :: v :: vs)) = w :: v :: vs
      have h1 : joinSpace (w :: v :: vs) = w ++ ' ' :: joinSpace (v :: vs) := by
        simp [joinSpace]
      rw [h1, pysplitAux_append_word w hwf [] _, List.nil_append,
        pysplitAux_ws ' ' (by decide) w _]
      rw [if_neg (by simp [hwne])]
      have := ih (fun u hu => hg u (by simp [hu]))
      simp only [pysplit] at this
      rw [this]
      rfl

/-! ### Lemmas about `_create_chunks` -/

/-- Every run of the chunking loop just partitions `current ++ words` into
non-empty consecutive groups and space-joins each group. -/
theorem createChunksAux_grouping (chunkSize : Nat) :
    ∀ (words current : List Str) (currentSize : Nat),
      ∃ G : List (List Str),
        createChunksAux chunkSize words current currentSize = G.map joinSpace ∧
        G.flatten = current ++ words ∧ ∀ g ∈ G, g ≠ [] := by
  intro words
  induction words with
  | nil =>
    intro current currentSize
    cases current with
    | nil => exact ⟨[], rfl, by simp, by simp⟩
    | cons a as =>
      refine ⟨[a :: as], ?_, by simp, by simp⟩
      simp [createChunksAux]
  | cons w ws ih =>
    intro current currentSize
    simp only [createChunksAux]
    by_cases h : chunkSize ≤ currentSize + w.length + 1
    · rw [if_pos h]
      obtain ⟨G', h1, h2, h3⟩ := ih [] 0
      refine ⟨(current ++ [w]) :: G', by simp [h1], ?_, ?_⟩
      · simp [h2]
      · intro g hg
        rcases List.mem_cons.1 hg with h | h
        · subst h; simp
        · exact h3 g h
    · rw [if_neg h]
      obtain ⟨G', h1, h2, h3⟩ := ih (current ++ [w]) (currentSize + w.length + 1)
      exact ⟨G', h1, by simpa using h2, h3⟩

/-- Claim C2: re-splitting every chunk produced by `_create_chunks` on
whitespace and concatenating the token lists in chunk order yields exactly
the whitespace-token sequence of the original text — no token lost, none
duplicated, order preserved. -/
theorem claim_C2 (text : Str) (target_size : Nat) :
    ((createChunks text target_size).map pysplit).flatten = pysplit text := by
  obtain ⟨G, h1, h2, h3⟩ := createChunksAux_grouping target_size (pysplit text) [] 0
  simp only [List.nil_append] at h2
  unfold createChunks
  rw [h1, List.map_map]
  have hcong : ∀ g ∈ G, (pysplit ∘ joinSpace) g = id g := by
    intro g hg
    simp only [Function.comp_apply, id_eq]
    apply pysplit_joinSpace
    intro w hw
    have hwmem : w ∈ pysplit text := by
      rw [← h2]
      exact List.mem_flatten.2 ⟨g, hg, hw⟩
    exact pysplit_wf text w hwmem
  rw [List.map_congr_left hcong, List.map_id, h2]

/-- `szsum` distributes over append. -/
theorem szsum_append (a b : List Str) : szsum (a ++ b) = szsum a + szsum b := by
  induction a with
  | nil => simp [szsum]
  | cons w ws ih =>
    simp only [szsum, List.foldr_cons, List.cons_append] at *
    omega

/-- The space-join of a non-empty token group is one character shorter than
the `current_size` the loop accumulates for it (one separator per token,
including one after the last token). -/
theorem joinSpace_length : ∀ (g : List Str), g ≠ [] → (joinSpace g).length + 1 = szsum g := by
  intro g
  induction g with
  | nil => intro h; exact absurd rfl h
  | cons w g' ih =>
    intro _
    cases g' with
    | nil => simp [joinSpace, szsum]
    | cons v vs =>
      have h1 : joinSpace (w :: v :: vs) = w ++ ' ' :: joinSpace (v :: vs) := by
        simp [joinSpace]
      have h2 := ih (by simp)
      rw [h1]
      simp only [szsum, List.foldr_cons, List.length_append, List.length_cons] at *
      omega

/-- `pysplitAux` returns no token exactly when the accumulator is empty and
all remaining characters are whitespace. -/
theorem pysplitAux_eq_nil_iff : ∀ (l acc : Str),
    pysplitAux acc l = [] ↔ acc = [] ∧ ∀ c ∈ l, c.isWhitespace := by
  intro l
  induction l with
  | nil => intro acc; cases acc <;> simp [pysplitAux]
  | cons c cs ih =>
    intro acc
    by_cases hws : c.isWhitespace
    · rw [pysplitAux_ws c hws]
      cases acc with
      | nil => simp [ih, hws]
      | cons a as => simp [hws]
    · simp only [pysplitAux, if_neg hws]
      rw [ih (acc ++ [c])]
      constructor
      · rintro ⟨h, -⟩
        exact absurd h (by simp)
      · rintro ⟨-, h⟩
        exact absurd (h c (by simp)) hws

/-- `text.split()` is empty exactly for empty or whitespace-only text. -/
theorem pysplit_eq_nil_iff (s : Str) : pysplit s = [] ↔ ∀ c ∈ s, c.isWhitespace := by
  unfold pysplit
  rw [pysplitAux_eq_nil_iff]
  simp

/-- The accumulated size of all tokens is at most the text length plus one
(each token needs at least one separating character, except around the
ends). -/
theorem szsum_pysplitAux_le : ∀ (l acc : Str),
    szsum (pysplitAux acc l) ≤ acc.length + 1 + l.length := by
  intro l
  induction l with
  | nil =>
    intro acc
    cases acc with
    | nil => simp [pysplitAux, szsum]
    | cons a as => simp [pysplitAux, szsum]
  | cons c cs ih =>
    intro acc
    by_cases hws : c.isWhitespace
    · rw [pysplitAux_ws c hws, szsum_append]
      have h2 := ih []
      have hflush : szsum (if acc.isEmpty then ([] : List Str) else [acc]) ≤ acc.length + 1 := by
        cases acc <;> simp [szsum]
      have hlen : (c :: cs).length = cs.length + 1 := rfl
      have hlen0 : ([] : Str).length = 0 := rfl
      omega
    · simp only [pysplitAux, if_neg hws]
      have h2 := ih (acc ++ [c])
      simp only [List.length_append, List.length_cons, List.length_nil] at *
      omega

/-- A non-empty list of non-empty tokens accumulates size at least 2. -/
theorem szsum_pos_words (g : List Str) (hne : g ≠ []) (h : ∀ w ∈ g, w ≠ []) :
    2 ≤ szsum g := by
  cases g with
  | nil => exact absurd rfl hne
  | cons w ws =>
    have hw : w ≠ [] := h w (by simp)
    have hl : 0 < w.length := List.length_pos.2 hw
    simp only [szsum, List.foldr_cons]
    omega

/-- If no proper prefix of the remaining words reaches the size threshold,
the loop emits everything as a single chunk. -/
theorem createChunksAux_single (chunkSize : Nat) :
    ∀ (words current : List Str) (currentSize : Nat),
      (current ≠ [] ∨ words ≠ []) →
      (∀ k : Nat, k + 1 < words.length →
        currentSize + szsum (words.take (k + 1)) < chunkSize) →
      createChunksAux chunkSize words current currentSize = [joinSpace (current ++ words)] := by
  intro words
  induction words with
  | nil =>
    intro current currentSize hne _
    rcases hne with h | h
    · simp only [createChunksAux, List.append_nil]
      rw [if_neg (by simp [h])]
    · exact absurd rfl h
  | cons w ws ih =>
    intro current currentSize hne hbound
    simp only [createChunksAux]
    cases ws with
    | nil =>
      by_cases h : chunkSize ≤ currentSize + w.length + 1
      · rw [if_pos h]
        simp [createChunksAux]
      · rw [if_neg h]
        simp only [createChunksAux]
        rw [if_neg (by simp)]
    | cons v vs =>
      have h0 : currentSize + szsum ((w :: v :: vs).take 1) < chunkSize := hbound 0 (by simp)
      have h0' : currentSize + (w.length + 1) < chunkSize := by
        simpa [szsum] using h0
      rw [if_neg (by omega)]
      rw [ih (current ++ [w]) (currentSize + w.length + 1) (Or.inr (by simp)) ?_]
      · simp
      · intro k hk
        have hb := hbound (k + 1) (by simpa using hk)
        have ht : (w :: v :: vs).take (k + 1 + 1) = w :: ((v :: vs).take (k + 1)) := rfl
        rw [ht] at hb
        have hs : szsum (w :: (v :: vs).take (k + 1))
            = w.length + 1 + szsum ((v :: vs).take (k + 1)) := rfl
        rw [hs] at hb
        omega

/-- Claim C8: a non-empty, non-whitespace-only text whose length is at most
`target_size` yields exactly one chunk, and empty or whitespace-only text
yields zero chunks. -/
theorem claim_C8 (text : Str) (target_size : Nat) :
    ((∃ c ∈ text, ¬ c.isWhitespace) → text.length ≤ target_size →
      (createChunks text target_size).length = 1) ∧
    ((∀ c ∈ text, c.isWhitespace) → createChunks text target_size = []) := by
  constructor
  · intro hne hlen
    have hsplit : pysplit text ≠ [] := by
      rw [Ne, pysplit_eq_nil_iff]
      push_neg
      exact hne
    unfold createChunks
    rw [createChunksAux_single target_size (pysplit text) [] 0 (Or.inr hsplit) ?_]
    · rfl
    · intro k hk
      have hbound : szsum (pysplit text) ≤ text.length + 1 := by
        have h := szsum_pysplitAux_le text []
        simp only [List.length_nil] at h
        unfold pysplit
        omega
      have hdecomp : szsum ((pysplit text).take (k + 1)) + szsum ((pysplit text).drop (k + 1))
          = szsum (pysplit text) := by
        rw [← szsum_append, List.take_append_drop]
      have hdropne : (pysplit text).drop (k + 1) ≠ [] := by
        rw [Ne, List.drop_eq_nil_iff]
        omega
      have h2 : 2 ≤ szsum ((pysplit text).drop (k + 1)) :=
        szsum_pos_words _ hdropne
          (fun w hw => (pysplit_wf text w (List.mem_of_mem_drop hw)).1)
      omega
  · intro hws
    unfold createChunks
    rw [(pysplit_eq_nil_iff text).2 hws]
    rfl

/-- Witness for claim C8, at the text `"ab cd"` and target size 10. -/
theorem claim_C8_witness :
    (createChunks ('a' :: 'b' :: ' ' :: 'c' :: 'd' :: []) 10).length = 1 ∧
    createChunks (' ' :: ' ' :: []) 10 = [] :=
  ⟨(claim_C8 ('a' :: 'b' :: ' ' :: 'c' :: 'd' :: []) 10).1 (by decide) (by decide),
   (claim_C8 (' ' :: ' ' :: []) 10).2 (by decide)⟩

/-- Every chunk the loop flushes at the size threshold — i.e. every chunk
except possibly the final remainder — has length at least `chunkSize - 1`
(the accumulated size also counts a separator after the chunk's last
token). -/
theorem createChunksAux_dropLast_le (chunkSize : Nat) :
    ∀ (words current : List Str) (currentSize : Nat), currentSize = szsum current →
      ∀ c ∈ (createChunksAux chunkSize words current currentSize).dropLast,
        chunkSize - 1 ≤ c.length := by
  intro words
  induction words with
  | nil =>
    intro current currentSize _ c hc
    simp only [createChunksAux] at hc
    by_cases h : current.isEmpty
    · simp [h] at hc
    · rw [if_neg h] at hc
      simp at hc
  | cons w ws ih =>
    intro current currentSize hsz c hc
    simp only [createChunksAux] at hc
    by_cases h : chunkSize ≤ currentSize + w.length + 1
    · rw [if_pos h] at hc
      cases hrest : createChunksAux chunkSize ws [] 0 with
      | nil =>
        rw [hrest] at hc
        simp at hc
      | cons r rs =>
        rw [hrest] at hc
        rw [show (joinSpace (current ++ [w]) :: r :: rs).dropLast
            = joinSpace (current ++ [w]) :: (r :: rs).dropLast from rfl] at hc
        rcases List.mem_cons.1 hc with h1 | h1
        · subst h1
          have hj := joinSpace_length (current ++ [w]) (by simp)
          have hsz2 : szsum (current ++ [w]) = currentSize + w.length + 1 := by
            rw [szsum_append, hsz]
            simp only [szsum, List.foldr_cons, List.foldr_nil]
            omega
          omega
        · rw [← hrest] at h1
          exact ih [] 0 rfl c h1
    · rw [if_neg h] at hc
      have hsz2 : currentSize + w.length + 1 = szsum (current ++ [w]) := by
        rw [szsum_append, hsz]
        simp only [szsum, List.foldr_cons, List.foldr_nil]
        omega
      exact ih (current ++ [w]) (currentSize + w.length + 1) hsz2 c hc

/-- Claim C9: for `target_size ≥ 2`, every chunk except possibly the last
has length at least `target_size - 1`; and this bound is attained — a
flushed chunk can be exactly one character short of the target, because the
accumulated size counts a separator after the chunk's final token. -/
theorem claim_C9 (target_size : Nat) (h2 : 2 ≤ target_size) :
    (∀ (text : Str), ∀ c ∈ (createChunks text target_size).dropLast,
      target_size - 1 ≤ c.length) ∧
    (∃ (text : Str), ∃ c ∈ (createChunks text target_size).dropLast,
      c.length = target_size - 1) := by
  constructor
  · intro text c hc
    exact createChunksAux_dropLast_le target_size (pysplit text) [] 0 rfl c hc
  · refine ⟨joinSpace [List.replicate (target_size - 1) 'a', ['x']], ?_⟩
    have hrepne : List.replicate (target_size - 1) 'a' ≠ [] := by
      rw [← List.length_pos, List.length_replicate]
      omega
    have hwf : ∀ w ∈ [List.replicate (target_size - 1) 'a', ['x']],
        w ≠ [] ∧ ∀ c ∈ w, ¬ c.isWhitespace := by
      intro w hw
      rcases List.mem_cons.1 hw with h | h
      · subst h
        refine ⟨hrepne, ?_⟩
        intro c hc
        rw [List.eq_of_mem_replicate hc]
        decide
      · simp only [List.mem_singleton] at h
        subst h
        exact ⟨by simp, by decide⟩
    have hsplit := pysplit_joinSpace _ hwf
    unfold createChunks
    rw [hsplit]
    have heval : createChunksAux target_size
        [List.replicate (target_size - 1) 'a', ['x']] [] 0
        = [List.replicate (target_size - 1) 'a', ['x']] := by
      simp only [createChunksAux, List.length_replicate, List.nil_append, List.length_cons,
        List.length_nil]
      rw [if_pos (by omega)]
      by_cases h : target_size ≤ 0 + (0 + 1) + 1
      · rw [if_pos h]
        simp [joinSpace, createChunksAux]
      · rw [if_neg h]
        simp [joinSpace, createChunksAux]
    rw [heval]
    exact ⟨List.replicate (target_size - 1) 'a', by simp, by simp⟩

/-- Witness for claim C9 at target size 4: the text `"aaa x"` produces the
chunks `["aaa", "x"]`, whose non-final chunk has length exactly 3. -/
theorem claim_C9_witness :
    ∃ (text : Str), ∃ c ∈ (createChunks text 4).dropLast, c.length = 4 - 1 :=
  (claim_C9 4 (by decide)).2

/-- The space-join of a group whose first token is non-empty is non-empty. -/
theorem joinSpace_ne_nil (w : Str) (ws : List Str) (hw : w ≠ []) :
    joinSpace (w :: ws) ≠ [] := by
  cases ws with
  | nil => simpa [joinSpace] using hw
  | cons v vs =>
    have h1 : joinSpace (w :: v :: vs) = w ++ ' ' :: joinSpace (v :: vs) := by
      simp [joinSpace]
    rw [h1]
    simp

/-- The first character of a space-join comes from the first token. -/
theorem joinSpace_head_mem (w : Str) (ws : List Str) (ch : Char) (hw : w ≠ [])
    (h : (joinSpace (w :: ws)).head? = some ch) : ch ∈ w := by
  cases w with
  | nil => exact absurd rfl hw
  | cons a w' =>
    cases ws with
    | nil =>
      simp only [joinSpace, List.head?_cons, Option.some_inj] at h
      subst h
      simp
    | cons v vs =>
      have h1 : joinSpace ((a :: w') :: v :: vs) = (a :: w') ++ ' ' :: joinSpace (v :: vs) := by
        simp [joinSpace]
      rw [h1] at h
      simp only [List.cons_append, List.head?_cons, Option.some_inj] at h
      subst h
      simp

/-- The last character of a space-join comes from one of the tokens. -/
theorem joinSpace_getLast_mem : ∀ (g : List Str), (∀ w ∈ g, w ≠ []) →
    ∀ (ch : Char), (joinSpace g).getLast? = some ch → ∃ w ∈ g, ch ∈ w := by
  intro g
  induction g with
  | nil => intro _ ch h; simp [joinSpace] at h
  | cons w ws ih =>
    intro hne ch h
    cases ws with
    | nil =>
      simp only [joinSpace] at h
      exact ⟨w, by simp, List.mem_of_mem_getLast? h⟩
    | cons v vs =>
      have h1 : joinSpace (w :: v :: vs) = w ++ ' ' :: joinSpace (v :: vs) := by
        simp [joinSpace]
      rw [h1, List.getLast?_append_cons] at h
      have hvne : v ≠ [] := hne v (by simp)
      obtain ⟨b, rest, hbe⟩ :=
        List.exists_cons_of_ne_nil (joinSpace_ne_nil v vs hvne)
      rw [hbe, List.getLast?_cons_cons, ← hbe] at h
      obtain ⟨u, hu, hchu⟩ := ih (fun x hx => hne x (by simp [hx])) ch h
      exact ⟨u, by simp [hu], hchu⟩

/-- Claim C10: every chunk `_create_chunks` produces is the single-space
join of one or more non-empty whitespace-free tokens; in particular it is
a non-empty string with no leading or trailing whitespace. -/
theorem claim_C10 (text : Str) (target_size : Nat) :
    ∀ c ∈ createChunks text target_size,
      c ≠ [] ∧
      (∃ g : List Str, g ≠ [] ∧
        (∀ w ∈ g, w ≠ [] ∧ ∀ ch ∈ w, ¬ ch.isWhitespace) ∧ c = joinSpace g) ∧
      (∀ ch, c.head? = some ch → ¬ ch.isWhitespace) ∧
      (∀ ch, c.getLast? = some ch → ¬ ch.isWhitespace) := by
  intro c hc
  obtain ⟨G, h1, h2, h3⟩ := createChunksAux_grouping target_size (pysplit text) [] 0
  simp only [List.nil_append] at h2
  unfold createChunks at hc
  rw [h1] at hc
  obtain ⟨g, hgG, hgc⟩ := List.mem_map.1 hc
  have hgwf : ∀ w ∈ g, w ≠ [] ∧ ∀ ch ∈ w, ¬ ch.isWhitespace := by
    intro w hw
    exact pysplit_wf text w (h2 ▸ List.mem_flatten.2 ⟨g, hgG, hw⟩)
  obtain ⟨w0, ws0, hgeq⟩ := List.exists_cons_of_ne_nil (h3 g hgG)
  have hw0 : w0 ≠ [] := (hgwf w0 (by simp [hgeq])).1
  refine ⟨?_, ⟨g, h3 g hgG, hgwf, hgc.symm⟩, ?_, ?_⟩
  · rw [← hgc, hgeq]
    exact joinSpace_ne_nil w0 ws0 hw0
  · intro ch hch
    rw [← hgc, hgeq] at hch
    exact (hgwf w0 (by simp [hgeq])).2 ch (joinSpace_head_mem w0 ws0 ch hw0 hch)
  · intro ch hch
    rw [← hgc] at hch
    obtain ⟨u, hu, hchu⟩ :=
      joinSpace_getLast_mem g (fun w hw => (hgwf w hw).1) ch hch
    exact (hgwf u hu).2 ch hchu

/-! ### Lemmas about the Corpus built by `load_directory` -/

/-- Looking up after an insert finds the inserted value at the inserted key
and is otherwise unchanged. -/
theorem lookupAssoc_insertAssoc {β : Type} (d : List (String × β)) (p p' : String) (v : β) :
    lookupAssoc (insertAssoc d p v) p' = if p = p' then some v else lookupAssoc d p' := by
  induction d with
  | nil =>
    simp only [insertAssoc, lookupAssoc]
  | cons qw rest ih =>
    obtain ⟨q, w⟩ := qw
    by_cases hq : q = p
    · simp only [insertAssoc, if_pos hq, lookupAssoc]
      by_cases h' : q = p'
      · have hpp : p = p' := by rw [← hq, h']
        simp [h', hpp]
      · have hpp : p ≠ p' := by
          intro h
          exact h' (by rw [hq, h])
        simp [h', hpp]
    · simp only [insertAssoc, if_neg hq, lookupAssoc]
      by_cases h' : q = p'
      · have hpp : p ≠ p' := by
          intro h
          exact hq (by rw [h', ← h])
        simp [h', hpp]
      · simp [h', ih]

/-- `lastContent` on a cons: a later occurrence of the path wins; otherwise
the head supplies the content exactly when its path matches. -/
theorem lastContent_cons (q : String) (c : Str) (rest : List (String × Str)) (p : String) :
    lastContent ((q, c) :: rest) p =
      (lastContent rest p).or (if q = p then some c else none) := by
  unfold lastContent
  by_cases hq : q = p
  · subst hq
    rw [if_pos rfl, List.filter_cons_of_pos (by simp)]
    cases hfil : rest.filter (fun f => decide (f.1 = q)) with
    | nil => simp
    | cons x xs =>
      rw [List.getLast?_cons_cons]
      cases hgl : (x :: xs).getLast? with
      | none => simp [List.getLast?_eq_none_iff] at hgl
      | some y => simp [hgl]
  · rw [if_neg hq, List.filter_cons_of_neg (by simp [hq])]
    simp

/-- Characterisation of the documents dict after the `load_directory` fold:
each stored chunk list is `_create_chunks` of the last content processed for
that path. -/
theorem lookupAssoc_foldl_processFile (embed : Str → Embedding) :
    ∀ (files : List (String × Str)) (init : Corpus) (p : String),
      lookupAssoc ((files.foldl (processFile embed) init).documents) p
        = ((lastContent files p).map (fun content => createChunks content 1000)).or
            (lookupAssoc init.documents p) := by
  intro files
  induction files with
  | nil =>
    intro init p
    simp [lastContent]
  | cons f rest ih =>
    intro init p
    obtain ⟨q, cont⟩ := f
    rw [List.foldl_cons, ih, lastContent_cons]
    have hstep : lookupAssoc ((processFile embed init (q, cont)).documents) p
        = if q = p then some (createChunks cont 1000) else lookupAssoc init.documents p := by
      unfold processFile
      exact lookupAssoc_insertAssoc init.documents q p (createChunks cont 1000)
    rw [hstep]
    by_cases hq : q = p
    · simp only [if_pos hq]
      cases lastContent rest p <;> simp
    · simp only [if_neg hq]
      cases lastContent rest p <;> simp

/-- Claim C1 counterexample: a file of unsupported type (so `_parse_file`
returns the empty string and `_create_chunks` returns zero chunks) is
nevertheless inserted into the Corpus — `load_directory` stores its path
with an empty chunk list, refuting the claim that such paths are not
inserted at all. -/
theorem claim_C1_counterexample :
    lookupAssoc ((loadDirectory [("doc.xyz", [])] embedZero).documents) "doc.xyz"
      = some [] := by
  rfl

/-- Claim C1, amended: `load_directory` inserts EVERY walked file into the
Corpus — the chunk list stored for a path is `_create_chunks` of the last
content parsed for it, so files whose extraction fails, is unsupported, or
yields empty/whitespace-only content are stored with an EMPTY chunk list
rather than omitted. -/
theorem claim_C1 (files : List (String × Str)) (embed : Str → Embedding) (p : String) :
    lookupAssoc ((loadDirectory files embed).documents) p
      = (lastContent files p).map (fun content => createChunks content 1000) := by
  unfold loadDirectory
  rw [lookupAssoc_foldl_processFile]
  simp [lookupAssoc]

/-- Mapping values commutes with `insertAssoc`. -/
theorem insertAssoc_map {β γ : Type} (g : β → γ) :
    ∀ (d : List (String × β)) (p : String) (v : β),
      insertAssoc (d.map (fun pc => (pc.1, g pc.2))) p (g v)
        = (insertAssoc d p v).map (fun pc => (pc.1, g pc.2)) := by
  intro d
  induction d with
  | nil => intro p v; rfl
  | cons qw rest ih =>
    intro p v
    obtain ⟨q, w⟩ := qw
    by_cases hq : q = p
    · simp [insertAssoc, hq]
    · simp only [List.map_cons, insertAssoc, if_neg hq, ih]

/-- The embeddings dict always mirrors the documents dict: same keys in the
same order, values mapped through `embed`. -/
theorem loadDirectory_embeddings_eq (files : List (String × Str)) (embed : Str → Embedding) :
    ∀ (init : Corpus),
      init.embeddings = init.documents.map (fun pc => (pc.1, pc.2.map embed)) →
      (files.foldl (processFile embed) init).embeddings
        = (files.foldl (processFile embed) init).documents.map
            (fun pc => (pc.1, pc.2.map embed)) := by
  induction files with
  | nil => intro init h; exact h
  | cons f rest ih =>
    intro init h
    rw [List.foldl_cons]
    apply ih
    unfold processFile
    rw [h]
    exact insertAssoc_map (List.map embed) init.documents f.1 (createChunks f.2 1000)

/-- Mapping values through `embed` commutes with `lookupAssoc`. -/
theorem lookupAssoc_map {β γ : Type} (g : β → γ) :
    ∀ (d : List (String × β)) (p : String),
      lookupAssoc (d.map (fun pc => (pc.1, g pc.2))) p = (lookupAssoc d p).map g := by
  intro d
  induction d with
  | nil => intro p; rfl
  | cons qw rest ih =>
    intro p
    obtain ⟨q, w⟩ := qw
    by_cases hq : q = p
    · simp [lookupAssoc, hq]
    · simp [lookupAssoc, hq, ih]

/-- Claim C6: after `load_directory`, the embedding list stored for a path
is exactly the chunk list mapped through the embedding function — equal
lengths, and the embedding at index `i` is the embedding of the chunk at
index `i`. -/
theorem claim_C6 (files : List (String × Str)) (embed : Str → Embedding)
    (p : String) (cs : List Str)
    (h : lookupAssoc ((loadDirectory files embed).documents) p = some cs) :
    ∃ es : List Embedding,
      lookupAssoc ((loadDirectory files embed).embeddings) p = some es ∧
      es.length = cs.length ∧
      ∀ i : Nat, es[i]? = (cs[i]?).map embed := by
  have hmirror := loadDirectory_embeddings_eq files embed ⟨[], []⟩ rfl
  refine ⟨cs.map embed, ?_, by simp, ?_⟩
  · unfold loadDirectory
    rw [hmirror, lookupAssoc_map]
    unfold loadDirectory at h
    rw [h]
    rfl
  · intro i
    exact List.getElem?_map embed cs i

/-- Witness for claim C6, on a one-file directory. -/
theorem claim_C6_witness :
    ∃ es : List Embedding,
      lookupAssoc ((loadDirectory [("a.txt", 'h' :: 'i' :: [])] embedZero).embeddings)
        "a.txt" = some es ∧
      es.length = (('h' :: 'i' :: []) :: []).length ∧
      ∀ i : Nat, es[i]? = ((('h' :: 'i' :: []) :: [] : List Str)[i]?).map embedZero :=
  claim_C6 [("a.txt", 'h' :: 'i' :: [])] embedZero "a.txt" (('h' :: 'i' :: []) :: []) rfl

/-- Witness for claim C10, at the text `"hi"`: the single chunk produced is
non-empty, a join of whitespace-free tokens, and has no whitespace at
either end. -/
theorem claim_C10_witness :
    ('h' :: 'i' :: []) ≠ ([] : Str) ∧
    (∃ g : List Str, g ≠ [] ∧
      (∀ w ∈ g, w ≠ [] ∧ ∀ ch ∈ w, ¬ ch.isWhitespace) ∧
      ('h' :: 'i' :: []) = joinSpace g) ∧
    (∀ ch, ('h' :: 'i' :: [] : Str).head? = some ch → ¬ ch.isWhitespace) ∧
    (∀ ch, ('h' :: 'i' :: [] : Str).getLast? = some ch → ¬ ch.isWhitespace) :=
  claim_C10 ('h' :: 'i' :: []) 1000 ('h' :: 'i' :: []) (by decide)

/-! ### Lemmas about the retriever -/

/-- Membership in `insertDesc`. -/
theorem insertDesc_mem (x : SimResult) : ∀ (l : List SimResult) (a : SimResult),
    a ∈ insertDesc x l ↔ a = x ∨ a ∈ l := by
  intro l
  induction l with
  | nil => intro a; simp [insertDesc]
  | cons y ys ih =>
    intro a
    by_cases h : x.similarity < y.similarity
    · simp only [insertDesc, if_pos h, List.mem_cons, ih]
      tauto
    · simp only [insertDesc, if_neg h, List.mem_cons]

/-- `insertDesc` preserves descending order of similarity. -/
theorem insertDesc_sorted (x : SimResult) : ∀ (l : List SimResult),
    l.Pairwise (fun a b => b.similarity ≤ a.similarity) →
    (insertDesc x l).Pairwise (fun a b => b.similarity ≤ a.similarity) := by
  intro l
  induction l with
  | nil => intro _; simp [insertDesc]
  | cons y ys ih =>
    intro hp
    rw [List.pairwise_cons] at hp
    obtain ⟨hy, hys⟩ := hp
    by_cases h : x.similarity < y.similarity
    · simp only [insertDesc, if_pos h]
      rw [List.pairwise_cons]
      refine ⟨?_, ih hys⟩
      intro b hb
      rcases (insertDesc_mem x ys b).1 hb with hbx | hbys
      · subst hbx
        exact le_of_lt h
      · exact hy b hbys
    · simp only [insertDesc, if_neg h]
      rw [List.pairwise_cons]
      refine ⟨?_, by rw [List.pairwise_cons]; exact ⟨hy, hys⟩⟩
      intro b hb
      rcases List.mem_cons.1 hb with hby | hbys
      · subst hby
        exact not_lt.1 h
      · exact le_trans (hy b hbys) (not_lt.1 h)

/-- The stable descending sort really sorts by similarity, descending. -/
theorem sortBySimilarityDesc_sorted (l : List SimResult) :
    (sortBySimilarityDesc l).Pairwise (fun a b => b.similarity ≤ a.similarity) := by
  unfold sortBySimilarityDesc
  induction l with
  | nil => simp
  | cons x xs ih => exact insertDesc_sorted x _ ih

/-- `insertDesc` adds exactly one element. -/
theorem insertDesc_length (x : SimResult) : ∀ (l : List SimResult),
    (insertDesc x l).length = l.length + 1 := by
  intro l
  induction l with
  | nil => rfl
  | cons y ys ih =>
    by_cases h : x.similarity < y.similarity
    · simp [insertDesc, h, ih]
    · simp [insertDesc, h]

/-- Sorting preserves length. -/
theorem sortBySimilarityDesc_length (l : List SimResult) :
    (sortBySimilarityDesc l).length = l.length := by
  unfold sortBySimilarityDesc
  induction l with
  | nil => rfl
  | cons x xs ih => rw [List.foldr_cons, insertDesc_length, ih, List.length_cons]

/-- `all_similarities` has one entry per stored chunk embedding. -/
theorem allSimilarities_length (e : List (String × List Embedding))
    (qe : Embedding) (sim : Embedding → Embedding → ℚ) :
    (allSimilarities e qe sim).length = (e.map (fun pe => pe.2.length)).sum := by
  unfold allSimilarities
  rw [List.length_flatten, List.map_map]
  apply congrArg
  apply List.map_congr_left
  intro pe _
  simp [List.enum_length]

/-- Claim C3: `find_relevant_chunks` returns a sequence sorted by
similarity in non-increasing order, of length at most `top_k` and at most
the total chunk count, and empty on an empty Corpus.  (In the embedding it
is a total function, so it never raises.) -/
theorem claim_C3 (c : Corpus) (queryEmbedding : Embedding)
    (sim : Embedding → Embedding → ℚ) (top_k : Nat) :
    (findRelevantChunks c queryEmbedding sim top_k).Pairwise
      (fun a b => b.similarity ≤ a.similarity) ∧
    (findRelevantChunks c queryEmbedding sim top_k).length ≤ top_k ∧
    (findRelevantChunks c queryEmbedding sim top_k).length ≤ totalChunks c ∧
    (c.embeddings = [] → findRelevantChunks c queryEmbedding sim top_k = []) := by
  refine ⟨?_, ?_, ?_, ?_⟩
  · exact (sortBySimilarityDesc_sorted
      (allSimilarities c.embeddings queryEmbedding sim)).sublist
      (List.take_sublist top_k _)
  · unfold findRelevantChunks
    rw [List.length_take]
    exact min_le_left _ _
  · unfold findRelevantChunks
    rw [List.length_take]
    refine le_trans (min_le_right _ _) ?_
    rw [sortBySimilarityDesc_length, allSimilarities_length]
    exact le_refl _
  · intro h
    unfold findRelevantChunks
    rw [h]
    simp [allSimilarities, sortBySimilarityDesc]

/-- Witness for claim C3: the empty Corpus yields the empty result list. -/
theorem claim_C3_witness : findRelevantChunks ⟨[], []⟩ [] simZero 3 = [] :=
  (claim_C3 ⟨[], []⟩ [] simZero 3).2.2.2 rfl

/-- Inserting an element whose similarity equals `q` puts it in front of
every other element of similarity `q` already present (the skipped prefix
consists of strictly larger scores). -/
theorem insertDesc_filter_eq (x : SimResult) (q : ℚ) (hx : x.similarity = q) :
    ∀ (l : List SimResult),
      (insertDesc x l).filter (fun r => decide (r.similarity = q))
        = x :: l.filter (fun r => decide (r.similarity = q)) := by
  intro l
  induction l with
  | nil => simp [insertDesc, hx]
  | cons y ys ih =>
    by_cases h : x.similarity < y.similarity
    · have hy : ¬ (y.similarity = q) := by
        intro he
        rw [hx] at h
        rw [he] at h
        exact lt_irrefl q h
      simp only [insertDesc, if_pos h]
      rw [List.filter_cons_of_neg (by simp [hy]), ih,
        List.filter_cons_of_neg (by simp [hy])]
    · simp only [insertDesc, if_neg h]
      rw [List.filter_cons_of_pos (by simp [hx])]

/-- Inserting an element whose similarity differs from `q` does not change
the `q`-tied subsequence. -/
theorem insertDesc_filter_ne (x : SimResult) (q : ℚ) (hx : ¬ x.similarity = q) :
    ∀ (l : List SimResult),
      (insertDesc x l).filter (fun r => decide (r.similarity = q))
        = l.filter (fun r => decide (r.similarity = q)) := by
  intro l
  induction l with
  | nil => simp [insertDesc, hx]
  | cons y ys ih =>
    by_cases h : x.similarity < y.similarity
    · simp only [insertDesc, if_pos h]
      by_cases hy : y.similarity = q
      · rw [List.filter_cons_of_pos (by simp [hy]), ih,
          List.filter_cons_of_pos (by simp [hy])]
      · rw [List.filter_cons_of_neg (by simp [hy]), ih,
          List.filter_cons_of_neg (by simp [hy])]
    · simp only [insertDesc, if_neg h]
      rw [List.filter_cons_of_neg (by simp [hx])]

/-- Stability: the sort keeps elements of equal similarity in their
original relative order. -/
theorem sortBySimilarityDesc_stable (l : List SimResult) (q : ℚ) :
    (sortBySimilarityDesc l).filter (fun r => decide (r.similarity = q))
      = l.filter (fun r => decide (r.similarity = q)) := by
  unfold sortBySimilarityDesc
  induction l with
  | nil => rfl
  | cons x xs ih =>
    rw [List.foldr_cons]
    by_cases hx : x.similarity = q
    · rw [insertDesc_filter_eq x q hx, ih, List.filter_cons_of_pos (by simp [hx])]
    · rw [insertDesc_filter_ne x q hx, ih, List.filter_cons_of_neg (by simp [hx])]

/-- Claim C4: the ranking is stable — for every similarity score, the
results carrying that score appear in their original encounter order
(`all_similarities` is built with documents in Corpus iteration order and
chunk indices ascending), and the returned prefix preserves that order.
Determinism across repeated calls is inherent: the embedding is a pure
function of the Corpus, query embedding and similarity function. -/
theorem claim_C4 (c : Corpus) (queryEmbedding : Embedding)
    (sim : Embedding → Embedding → ℚ) (top_k : Nat) :
    findRelevantChunks c queryEmbedding sim top_k
      = (sortBySimilarityDesc (allSimilarities c.embeddings queryEmbedding sim)).take top_k ∧
    (∀ q : ℚ,
      (sortBySimilarityDesc (allSimilarities c.embeddings queryEmbedding sim)).filter
          (fun r => decide (r.similarity = q))
        = (allSimilarities c.embeddings queryEmbedding sim).filter
            (fun r => decide (r.similarity = q))) ∧
    (∀ q : ℚ, List.IsPrefix
      ((findRelevantChunks c queryEmbedding sim top_k).filter
        (fun r => decide (r.similarity = q)))
      ((allSimilarities c.embeddings queryEmbedding sim).filter
        (fun r => decide (r.similarity = q)))) := by
  refine ⟨rfl, fun q => sortBySimilarityDesc_stable _ q, fun q => ?_⟩
  rw [← sortBySimilarityDesc_stable (allSimilarities c.embeddings queryEmbedding sim) q]
  exact (List.take_prefix top_k _).filter _

/-! ### Error handling claims -/

/-- Claim C5: whenever the backend call fails — transport error, HTTP error
status, non-JSON body or missing `response` key — `query_ollama` returns
the human-readable string `"Error querying Ollama: ..."` instead of
propagating the exception.  (The embedding is a total function: every
failing outcome is mapped to a string, never left undefined.) -/
theorem claim_C5 (backendReply : String → HttpOutcome) (prompt context : String)
    (h : ollamaFailed (backendReply (fullPrompt context prompt)) = true) :
    ∃ m : String, queryOllama backendReply prompt context = "Error querying Ollama: " ++ m := by
  unfold queryOllama
  cases hbr : backendReply (fullPrompt context prompt) with
  | transportError msg => exact ⟨msg, rfl⟩
  | success status statusMsg body =>
    rw [hbr] at h
    simp only [ollamaFailed] at h
    simp only [queryOllamaResult]
    by_cases hst : 400 ≤ status ∧ status < 600
    · rw [if_pos hst]
      exact ⟨statusMsg, rfl⟩
    · rw [if_neg hst]
      cases body with
      | malformed msg => exact ⟨msg, rfl⟩
      | missingKey msg => exact ⟨msg, rfl⟩
      | ok resp =>
        exfalso
        simp only [Bool.or_eq_true, decide_eq_true_eq] at h
        rcases h with h | h
        · exact hst h
        · simp at h

/-- Witness for claim C5: an unreachable backend produces the error
string. -/
theorem claim_C5_witness :
    ollamaFailed (brDown (fullPrompt "ctx" "q")) = true ∧
    ∃ m : String, queryOllama brDown "q" "ctx" = "Error querying Ollama: " ++ m :=
  ⟨rfl, claim_C5 brDown "q" "ctx" rfl⟩

/-- Claim C7: when retrieval finds no relevant chunks, the chat loop tells
the user so, keeps running, and never consults the generation backend —
the step's outcome is the same for every possible backend. -/
theorem claim_C7 (c : Corpus) (queryEmbedding : Embedding)
    (sim : Embedding → Embedding → ℚ) (backend : String → Str → String)
    (query : String)
    (hq : pylower query ≠ "exit")
    (hempty : findRelevantChunks c queryEmbedding sim 3 = []) :
    chatStep c queryEmbedding sim backend query = ChatAction.noResults ∧
    loopContinues (chatStep c queryEmbedding sim backend query) = true ∧
    ∀ backend2 : String → Str → String,
      chatStep c queryEmbedding sim backend2 query
        = chatStep c queryEmbedding sim backend query := by
  have hstep : ∀ b : String → Str → String,
      chatStep c queryEmbedding sim b query = ChatAction.noResults := by
    intro b
    unfold chatStep
    rw [if_neg hq, hempty]
    simp
  refine ⟨hstep backend, ?_, fun b2 => by rw [hstep b2, hstep backend]⟩
  rw [hstep backend]
  rfl

/-- Witness for claim C7: an empty Corpus with the query `"hi"`. -/
theorem claim_C7_witness :
    chatStep ⟨[], []⟩ [] simZero (fun _ _ => "") "hi" = ChatAction.noResults ∧
    loopContinues (chatStep ⟨[], []⟩ [] simZero (fun _ _ => "") "hi") = true ∧
    ∀ backend2 : String → Str → String,
      chatStep ⟨[], []⟩ [] simZero backend2 "hi"
        = chatStep ⟨[], []⟩ [] simZero (fun _ _ => "") "hi" :=
  claim_C7 ⟨[], []⟩ [] simZero (fun _ _ => "") "hi" (by decide) rfl
